import Mathlib

/-!
Shallow embedding of `src/jira/jira-helper.js` (the "Ticket Correlator").

The module is CI glue: every network / filesystem / CLI effect is modelled as an
explicit input (the text a command printed, the tracker's response to a request)
or as an explicit output (the list of requests the function issues).  Pure string
processing is translated function by function from the JavaScript source.
-/

/-- Fixed project key constant `const projectKey = 'DEMO'` at module scope. -/
def projectKey : String := "DEMO"

/-- JS character class `[a-zA-Z0-9]` (ASCII letters and digits). -/
def isAlnumCh (c : Char) : Bool := c.isAlpha || c.isDigit

/-- Model of the shell stage `grep -e '[a-zA-Z]\+-[0-9]\+' -o` inside
`findRelatedJiraTicket`'s `exec` call: scan the git-log text left to right and
emit each leftmost-longest non-overlapping match of `[a-zA-Z]+-[0-9]+`, in
input order (a match never spans a newline because none of the three character
classes contains one, so scanning the whole text equals grep's per-line scan).
The fuel argument only drives structural recursion: every recursive call
consumes at least one character, so fuel equal to the list length is never
exhausted before the input is. -/
def grepGo : Nat → List Char → List String
  | 0, _ => []
  | _ + 1, [] => []
  | fuel + 1, c :: rest =>
    if c.isAlpha then
      match List.dropWhile Char.isAlpha rest with
      | '-' :: d :: rest2 =>
        if d.isDigit then
          String.mk (c :: (List.takeWhile Char.isAlpha rest ++
              '-' :: d :: List.takeWhile Char.isDigit rest2))
            :: grepGo fuel (List.dropWhile Char.isDigit rest2)
        else grepGo fuel ('-' :: d :: rest2)
      | after => grepGo fuel after
    else grepGo fuel rest

/-- All matches of `[a-zA-Z]+-[0-9]+` in the git-log text, in input order. -/
def grepExtract (s : String) : List String := grepGo s.data.length s.data

/-- Strict lexicographic byte order on lines, as the C locale compares them:
earlier codepoint first, a proper leading line before any extension of it. -/
def lineLtB : List Char → List Char → Bool
  | [], [] => false
  | [], _ :: _ => true
  | _ :: _, [] => false
  | a :: as, b :: bs =>
    if a.toNat < b.toNat then true
    else if b.toNat < a.toNat then false
    else lineLtB as bs

/-- One insertion step of `sort -u` (C collation = codepoint order): insert a
line into an already strictly-sorted list, dropping it if it is already there. -/
def insertU (x : String) : List String → List String
  | [] => [x]
  | y :: ys =>
    if lineLtB x.data y.data then x :: y :: ys
    else if x = y then y :: ys
    else y :: insertU x ys

/-- Model of the shell stage `sort -u`: sorted output with duplicate lines
removed (byte order, as under the C locale). -/
def sortU (l : List String) : List String := List.foldr insertU [] l

/-- The character stream a list of grep matches produces on stdout: each match
on its own line (grep `-o` prints a trailing newline after every match). -/
def linesOutData : List String → List Char
  | [] => []
  | m :: ms => m.data ++ '\n' :: linesOutData ms

/-- stdout of the whole shell pipeline
`git log ... | grep -e '[a-zA-Z]\+-[0-9]\+' -o | sort -u`, as captured in
`const { stdout: jiraTickets } = await exec(...)`.  The git-log text itself is
the `gitLog` input. -/
def pipelineStdout (gitLog : String) : String :=
  String.mk (linesOutData (sortU (grepExtract gitLog)))

/-- Accumulator worker for JS `String.prototype.split('\n')`. -/
def splitNlAux (cur : List Char) : List Char → List String
  | [] => [String.mk cur.reverse]
  | c :: cs =>
    if c = '\n' then String.mk cur.reverse :: splitNlAux [] cs
    else splitNlAux (c :: cur) cs

/-- JS `s.split('\n')`: segments between newline separators, empty segments
included (so `"".split` gives `[""]` and a trailing newline yields a final `""`). -/
def jsSplitNl (s : String) : List String := splitNlAux [] s.data

/-- JS `String.prototype.toUpperCase()` restricted to the ASCII text this
pipeline produces. -/
def jsToUpper (s : String) : String := String.mk (s.data.map Char.toUpper)

/-- Accumulator worker for JS `[...new Set(list)]`: keep the first occurrence of
each element, dropping anything already seen. -/
def dedupFirstAux (seen : List String) : List String → List String
  | [] => []
  | x :: xs =>
    if x ∈ seen then dedupFirstAux seen xs else x :: dedupFirstAux (x :: seen) xs

/-- JS `[...new Set(tickets)]`: deduplicate keeping first occurrences in order. -/
def dedupFirst (l : List String) : List String := dedupFirstAux [] l

/-- The `initialJiraTicketsList` value of `findRelatedJiraTicket`:
`[...new Set(jiraTickets.split('\n').filter(String).map(k => k.toUpperCase()))]`. -/
def initialCandidates (gitLog : String) : List String :=
  dedupFirst (List.map jsToUpper
    (List.filter (fun t => t ≠ "") (jsSplitNl (pipelineStdout gitLog))))

/-- `extractedKey()` in the verification loop:
`initialJiraTicketsList[i].replace(/[^a-zA-Z]/g, '')`. -/
def stripNonAlpha (s : String) : String := String.mk (List.filter Char.isAlpha s.data)

/-- After the leading `[a-zA-Z0-9]+` of the strict pattern: continue the
alphanumeric run until a `-` immediately followed by a digit is found. -/
def dashOrMore : List Char → Bool
  | '-' :: d :: _ => d.isDigit
  | c :: rest => isAlnumCh c && dashOrMore rest
  | [] => false

/-- The `[a-zA-Z0-9]+-[0-9]+` tail of the strict pattern (at least one
alphanumeric before the dash). -/
def alnumThenDash : List Char → Bool
  | c :: rest => isAlnumCh c && dashOrMore rest
  | [] => false

/-- A match of `[a-zA-Z][a-zA-Z0-9]+-[0-9]+` starting at the head of the list. -/
def strictHere : List Char → Bool
  | c :: rest => c.isAlpha && alnumThenDash rest
  | [] => false

/-- A match of the strict pattern starting anywhere in the list. -/
def strictSearchAux : List Char → Bool
  | [] => false
  | c :: rest => strictHere (c :: rest) || strictSearchAux rest

/-- JS truthiness of `s.match(/([a-zA-Z][a-zA-Z0-9]+-[0-9]+)/g)`: `.match`
with `/g` returns `null` (falsy) when no substring matches, a non-empty array
(truthy) otherwise, so the test is substring-match existence. -/
def strictSearch (s : String) : Bool := strictSearchAux s.data

/-- The per-candidate test of `findRelatedJiraTicket`'s verification loop:
`initialJiraTicketsList[i].match(...) && jiraProjectKeysArray.includes(extractedKey())`. -/
def verifyCandidate (projectKeys : List String) (s : String) : Bool :=
  strictSearch s && List.contains projectKeys (stripNonAlpha s)

/-- The message of `throw new Error('Could not find related Jira ticket')`. -/
def ticketNotFoundMsg : String := "Could not find related Jira ticket"

/-- The verification loop of `findRelatedJiraTicket`: walk the candidate list,
pushing verified candidates, and throw on the first candidate that fails the
strict-pattern or project-key check (discarding everything pushed so far). -/
def verifyLoop (projectKeys : List String) : List String → Except String (List String)
  | [] => Except.ok []
  | s :: rest =>
    if verifyCandidate projectKeys s then
      match verifyLoop projectKeys rest with
      | Except.ok verified => Except.ok (s :: verified)
      | Except.error e => Except.error e
    else Except.error ticketNotFoundMsg

/-- `findRelatedJiraTicket`, with its two effectful inputs made explicit:
`gitLog` is the text `git log --pretty=oneline --no-merges a..b` printed (the
shell then pipes it through grep and `sort -u`, modelled by `pipelineStdout`),
and `jiraProjectKeys` is the list of `item.key` values of the projects returned
by `jira.listProjects()` during this same call.  A thrown error is `Except.error`. -/
def findRelatedJiraTicket (gitLog : String) (jiraProjectKeys : List String) :
    Except String (List String) :=
  verifyLoop jiraProjectKeys (initialCandidates gitLog)

/-- Head test for the literal characters `xml`. -/
def startsWithXml : List Char → Bool
  | a :: b :: c :: _ => a == 'x' && b == 'm' && c == 'l'
  | _ => false

/-- The four characters a JS regexp `.` (no `s` flag, no `m` flag) refuses to
match: the line terminators LF, CR, LINE SEPARATOR and PARAGRAPH SEPARATOR. -/
def isLineTerm (c : Char) : Bool :=
  c == '\n' || c == '\r' || c == ' ' || c == ' '

/-- The regex test of `listXmlReports`: `new RegExp(/^.*.xml/).test(name)`.
The dot before `xml` is unescaped, so it matches any character EXCEPT a line
terminator, and `^.*` likewise cannot cross one: the test holds exactly when
`xml` (lowercase) occurs at some position at least 1 with no line terminator
anywhere before it — i.e. preceded by at least one character, all characters
up to the occurrence being non-terminators. -/
def hasXmlAfterFirst : List Char → Bool
  | [] => false
  | c :: rest => !isLineTerm c && (startsWithXml rest || hasXmlAfterFirst rest)

/-- `listXmlReports`: filter the directory listing (`fs.readdirSync(dir)`,
passed in as `files` in enumeration order) by the regex test, preserving order. -/
def listXmlReports (files : List String) : List String :=
  List.filter (fun f => hasXmlAfterFirst f.data) files

/-- Head test for the literal four characters `.xml`. -/
def startsWithDotXml : List Char → Bool
  | a :: b :: c :: d :: _ => a == '.' && b == 'x' && c == 'm' && d == 'l'
  | _ => false

/-- What the spec's words "name containing `.xml` anywhere, case-sensitive"
describe: a literal-dot substring test.  Used only to compare the code's filter
against the specified one. -/
def specContainsDotXml : List Char → Bool
  | [] => false
  | c :: rest => startsWithDotXml (c :: rest) || specContainsDotXml rest

/-- What the spec's words describe for the extraction step of
`findRelatedJiraTicket`: every match of `[A-Za-z]+-[0-9]+`, uppercased,
deduplicated with order of FIRST OCCURRENCE in the input preserved.  Used only
to compare the code's pipeline (which interposes `sort -u`) against it. -/
def specFirstOccurrenceExtraction (gitLog : String) : List String :=
  dedupFirst (List.map jsToUpper (grepExtract gitLog))

/-- JS template-literal rendering of the module variable `xrayToken`: a missing
value (`undefined`) prints as the text `undefined`. -/
def jsTemplateOpt : Option String → String
  | Option.none => "undefined"
  | Option.some s => s

/-- One `needle('POST', .../import/execution/junit...)` request issued by
`importXmlDataToXray`, with the fields the claims are about. -/
structure ImportRequest where
  url : String
  authHeader : String
  body : String
  deriving DecidableEq

/-- `importXmlDataToXray` with its effectful inputs made explicit: `dirListing`
is what `fs.readdirSync(dir)` returns inside `listXmlReports`, and `authResult`
is the outcome of the authenticate POST (`Except.ok body` sets
`xrayToken = res.body`; `Except.error` is caught and only logged, leaving
`xrayToken` undefined).  The output is the list of import requests the
`xmlReportFiles.forEach` loop issues, one per listed file, in order; each
per-file response is only logged, so a failing import never removes a request. -/
def importXmlDataToXray (xrayCloudUrl dir testExecutionKey : String)
    (dirListing : List String) (authResult : Except String String) :
    List ImportRequest :=
  let xmlReportFiles := listXmlReports dirListing
  let xrayToken : Option String :=
    match authResult with
    | Except.ok body => Option.some body
    | Except.error _ => Option.none
  List.map (fun xmlFile =>
    { url := xrayCloudUrl ++ "/api/v2/import/execution/junit?projectKey=" ++
        projectKey ++ "&testExecKey=" ++ testExecutionKey
      authHeader := "Bearer " ++ jsTemplateOpt xrayToken
      body := dir ++ "/" ++ xmlFile }) xmlReportFiles

/-- One `jira.updateIssue(ticket, issueObject, {})` call issued by
`linkTestExecutionResults`, with the fields of the fixed `issueObject`. -/
structure LinkCall where
  ticket : String
  linkTypeName : String
  inwardIssueKey : String
  deriving DecidableEq

/-- Observable outcome of `linkTestExecutionResults`: the link-update calls it
issues and the console messages it prints.  The function itself never throws:
the loop body is wrapped in try/catch and each call's failure is only logged. -/
structure LinkOutcome where
  calls : List LinkCall
  logs : List String
  deriving DecidableEq

/-- The informational `console.log` printed when the related-ticket list is
empty (the JS guard `!relatedJiraTickets.length > 0` coerces the negated length
to a number, so it is true exactly when the list is empty). -/
def noRelatedTicketsMsg (jiraExecutionTicket : String) : String :=
  "There are no related tickets where the test execution can be linked, to see test results just go\n    directly here: " ++ jiraExecutionTicket

/-- The per-ticket success message of `linkTestExecutionResults`. -/
def linkedTicketMsg (ticket jiraExecutionTicket : String) : String :=
  "Ticket: " ++ ticket ++ " has been successfully linked with tests results coming from " ++ jiraExecutionTicket

/-- `linkTestExecutionResults`: builds the fixed issue-link payload, logs the
informational message when the list is empty, and issues one
`jira.updateIssue` call per related ticket. -/
def linkTestExecutionResults (relatedJiraTickets : List String)
    (jiraExecutionTicket : String) : LinkOutcome :=
  let infoLogs :=
    if relatedJiraTickets.length = 0 then [noRelatedTicketsMsg jiraExecutionTicket] else []
  let calls := List.map (fun ticket =>
    { ticket := ticket, linkTypeName := "Test",
      inwardIssueKey := jiraExecutionTicket : LinkCall }) relatedJiraTickets
  let successLogs := List.map (fun ticket => linkedTicketMsg ticket jiraExecutionTicket)
    relatedJiraTickets
  { calls := calls, logs := infoLogs ++ successLogs }

/-- The `fields` object `createJiraTestExecutionTicket` submits through
`jira.addNewIssue`. -/
structure IssueFields where
  issueProjectKey : String
  summary : String
  description : String
  issuetypeId : Nat
  deriving DecidableEq

/-- A created tracker issue, of which the function only reads `.key`. -/
structure JiraIssue where
  key : String
  deriving DecidableEq

/-- The `issueObject.fields` value built inside `createJiraTestExecutionTicket`
from its parameters (string interpolation written as concatenation). -/
def executionIssueFields (githubRepo : String) (githubRun : Nat) (env actor : String)
    (githubRunId : Nat) (branchName : String) : IssueFields :=
  { issueProjectKey := projectKey
    summary := "Automated test run for " ++ githubRepo ++ ", github run number: #" ++
      toString githubRun ++ " | Env: " ++ env
    description := "Automated test results executed for " ++ githubRepo ++ " on branch " ++
      branchName ++ " by " ++ actor ++
      ".\n        Click https://github.com/" ++ githubRepo ++ "/actions/runs/" ++
      toString githubRunId ++ " to see the Github Action workflow summary."
    issuetypeId := 10008 }

/-- `createJiraTestExecutionTicket` with the tracker made explicit:
`jiraAddNewIssue` maps the submitted fields to the tracker's response
(`Except.error` models `jira.addNewIssue` rejecting for any reason).  The
try/catch turns a success into `some issue.key` and any failure into
`console.error(err); return null`, modelled as `none`; the function is total,
so no exception ever propagates to the caller. -/
def createJiraTestExecutionTicket
    (jiraAddNewIssue : IssueFields → Except String JiraIssue)
    (githubRepo : String) (githubRun : Nat) (env actor : String)
    (githubRunId : Nat) (branchName : String) : Option String :=
  let issueObject := executionIssueFields githubRepo githubRun env actor githubRunId branchName
  match jiraAddNewIssue issueObject with
  | Except.ok issue => Option.some issue.key
  | Except.error _ => Option.none

/-- Observable events of `addInfoAboutExecution`, in program order: opening a
read stream over the report file (`fs.createReadStream(path)`, tagged with a
fresh stream id counting the opens of this invocation from 0), one
`jira.addAttachmentOnIssue(ticket, stream)` call per ticket, one
`jira.addCommentAdvanced(ticket, comment)` call per ticket, and console logs. -/
inductive ExecutionEvent where
  | openStream (path : String) (streamId : Nat)
  | attach (ticket : String) (streamId : Nat)
  | comment (ticket : String) (commentBody : String)
  | info (msg : String)
  deriving DecidableEq

/-- The comment body `addInfoAboutExecution` posts on every related ticket. -/
def executionCommentBody (githubRepo currentBranchName env actor : String)
    (githubRunId : Nat) (reportLink : String) : String :=
  "Automated test run has been executed for " ++ githubRepo ++ " on branch " ++
    currentBranchName ++ " and " ++ env ++ " environment by " ++ actor ++
    ".\n    Click https://github.com/" ++ githubRepo ++ "/actions/runs/" ++
    toString githubRunId ++ " to see the Github Action workflow summary,\n    or here to see full report " ++
    reportLink

/-- `addInfoAboutExecution` as its event trace.  The source calls
`fs.createReadStream(path)` exactly once, before the empty-list branch, and the
resulting `reportStream` constant (stream id 0, the first and only open of the
invocation) is the value passed to every `jira.addAttachmentOnIssue` call; a
per-ticket re-open would instead emit further `openStream` events with fresh
ids 1, 2, ... . -/
def addInfoAboutExecution (relatedJiraTickets : List String)
    (path githubRepo currentBranchName env actor : String)
    (githubRunId : Nat) (reportLink : String) : List ExecutionEvent :=
  let reportStreamId : Nat := 0
  ExecutionEvent.info (String.intercalate "," relatedJiraTickets) ::
  ExecutionEvent.openStream path reportStreamId ::
  (if relatedJiraTickets.length = 0 then
    [ExecutionEvent.info "There are no related tickets where test report can be linked"]
  else
    List.map (fun ticket => ExecutionEvent.attach ticket reportStreamId) relatedJiraTickets ++
    List.map (fun ticket => ExecutionEvent.comment ticket
      (executionCommentBody githubRepo currentBranchName env actor githubRunId reportLink))
      relatedJiraTickets)

/-- Recognizer for stream-open events. -/
def isOpenStreamEvent : ExecutionEvent → Bool
  | ExecutionEvent.openStream _ _ => true
  | _ => false

/-- Every element of a successful verification-loop result passed the
per-candidate check. -/
theorem verifyLoop_ok_mem (keys : List String) :
    ∀ (l out : List String), verifyLoop keys l = Except.ok out →
      ∀ s ∈ out, verifyCandidate keys s = true := by
  intro l
  induction l with
  | nil =>
    intro out h s hs
    simp only [verifyLoop, Except.ok.injEq] at h
    subst h
    simp at hs
  | cons x xs ih =>
    intro out h s hs
    simp only [verifyLoop] at h
    by_cases hx : verifyCandidate keys x = true
    · rw [if_pos hx] at h
      cases hrec : verifyLoop keys xs with
      | ok v =>
        rw [hrec] at h
        simp only [Except.ok.injEq] at h
        subst h
        rcases List.mem_cons.mp hs with rfl | hmem
        · exact hx
        · exact ih v hrec s hmem
      | error e =>
        rw [hrec] at h
        simp at h
    · rw [if_neg hx] at h
      simp at h

/-- If some candidate in the list fails the per-candidate check, the
verification loop throws the ticket-not-found error. -/
theorem verifyLoop_error_of_exists (keys : List String) :
    ∀ (l : List String), (∃ s, s ∈ l ∧ verifyCandidate keys s = false) →
      verifyLoop keys l = Except.error ticketNotFoundMsg := by
  intro l
  induction l with
  | nil =>
    rintro ⟨s, hs, -⟩
    simp at hs
  | cons x xs ih =>
    rintro ⟨s, hs, hbad⟩
    simp only [verifyLoop]
    rcases List.mem_cons.mp hs with rfl | hmem
    · rw [if_neg (by simp [hbad])]
    · by_cases hx : verifyCandidate keys x = true
      · rw [if_pos hx, ih ⟨s, hmem, hbad⟩]
      · rw [if_neg hx]

/-- C1: every ticket key in a list returned by `findRelatedJiraTicket` matches
the strict ticket-key regex and has its alphabetic prefix (the key with all
non-alphabetic characters stripped) present in the project key set fetched from
the tracker during that same call; and if any candidate violates either
condition, the whole call fails with the ticket-not-found error instead of
silently dropping that candidate. -/
theorem findRelated_allVerified_or_fails (gitLog : String) (jiraProjectKeys : List String) :
    (∀ out, findRelatedJiraTicket gitLog jiraProjectKeys = Except.ok out →
      ∀ s ∈ out, strictSearch s = true ∧
        List.contains jiraProjectKeys (stripNonAlpha s) = true)
    ∧ ((∃ s, s ∈ initialCandidates gitLog ∧ verifyCandidate jiraProjectKeys s = false) →
      findRelatedJiraTicket gitLog jiraProjectKeys = Except.error ticketNotFoundMsg) := by
  constructor
  · intro out h s hs
    have hv := verifyLoop_ok_mem jiraProjectKeys (initialCandidates gitLog) out h s hs
    simpa [verifyCandidate, Bool.and_eq_true] using hv
  · intro hex
    exact verifyLoop_error_of_exists jiraProjectKeys (initialCandidates gitLog) hex

/-- Witness for C1 at the concrete run of section 8 of the spec. -/
theorem findRelated_allVerified_witness :
    strictSearch "DEMO-3" = true ∧ List.contains ["DEMO"] (stripNonAlpha "DEMO-3") = true :=
  (findRelated_allVerified_or_fails "abc demo-3 fix" ["DEMO"]).1 ["DEMO-3"] (by rfl)
    "DEMO-3" (by simp)

/-- C2: whenever at least one deduplicated candidate fails verification,
`findRelatedJiraTicket` fails with the "Could not find related Jira ticket"
error and returns no partial result; in particular the spec's concrete run
(`OTHER` not in the project key set `{DEMO}`) raises and returns nothing. -/
theorem findRelated_failure_all_or_nothing (gitLog : String) (keys : List String) :
    ((∃ s, s ∈ initialCandidates gitLog ∧ verifyCandidate keys s = false) →
      findRelatedJiraTicket gitLog keys = Except.error ticketNotFoundMsg)
    ∧ findRelatedJiraTicket "abc DEMO-12 fix\ndef demo-12 fix\nghi OTHER-5 x" ["DEMO"] =
        Except.error ticketNotFoundMsg := by
  refine ⟨fun hex => verifyLoop_error_of_exists keys (initialCandidates gitLog) hex, ?_⟩
  rfl

/-- Witness for C2's universal part at a concrete input with a foreign project key. -/
theorem findRelated_failure_witness :
    findRelatedJiraTicket "abc OTHER-5" ["DEMO"] = Except.error ticketNotFoundMsg :=
  (findRelated_failure_all_or_nothing "abc OTHER-5" ["DEMO"]).1
    ⟨"OTHER-5", by decide, by rfl⟩

/-- C4: for commit log text "abc demo-3 fix" and project key set {DEMO},
`findRelatedJiraTicket` succeeds and returns exactly ["DEMO-3"] (the candidate
uppercased and deduplicated). -/
theorem findRelated_demo3_succeeds :
    findRelatedJiraTicket "abc demo-3 fix" ["DEMO"] = Except.ok ["DEMO-3"] := rfl

/-- The `xml` head test holds exactly on lists beginning with those three
characters. -/
theorem startsWithXml_iff (l : List Char) :
    startsWithXml l = true ↔ ∃ q, l = 'x' :: 'm' :: 'l' :: q := by
  match l with
  | [] => simp [startsWithXml]
  | [a] => simp [startsWithXml]
  | [a, b] => simp [startsWithXml]
  | a :: b :: c :: q =>
    simp only [startsWithXml, Bool.and_eq_true, beq_iff_eq, List.cons.injEq]
    constructor
    · rintro ⟨⟨rfl, rfl⟩, rfl⟩
      exact ⟨q, rfl, rfl, rfl, rfl⟩
    · rintro ⟨q', rfl, rfl, rfl, rfl⟩
      exact ⟨⟨rfl, rfl⟩, rfl⟩

/-- Characterization of the `listXmlReports` regex test: a name passes exactly
when `xml` occurs somewhere in it preceded by at least one character, with
every character before the occurrence a non-line-terminator. -/
theorem hasXmlAfterFirst_iff (l : List Char) :
    hasXmlAfterFirst l = true ↔
      ∃ p q, l = p ++ 'x' :: 'm' :: 'l' :: q ∧ p ≠ [] ∧
        ∀ c ∈ p, isLineTerm c = false := by
  induction l with
  | nil =>
    simp only [hasXmlAfterFirst, Bool.false_eq_true, false_iff]
    rintro ⟨p, q, heq, hp, -⟩
    cases p with
    | nil => exact hp rfl
    | cons a p' => simp at heq
  | cons c rest ih =>
    simp only [hasXmlAfterFirst, Bool.and_eq_true, Bool.not_eq_true',
      Bool.or_eq_true, startsWithXml_iff, ih]
    constructor
    · rintro ⟨hct, ⟨q, rfl⟩ | ⟨p, q, rfl, hp, hpt⟩⟩
      · refine ⟨[c], q, rfl, by simp, ?_⟩
        intro x hx
        rcases List.mem_singleton.mp hx with rfl
        exact hct
      · refine ⟨c :: p, q, rfl, by simp, ?_⟩
        intro x hx
        rcases List.mem_cons.mp hx with rfl | hx
        · exact hct
        · exact hpt x hx
    · rintro ⟨p, q, heq, hp, hpt⟩
      cases p with
      | nil => exact absurd rfl hp
      | cons a p' =>
        rw [List.cons_append] at heq
        injection heq with h1 h2
        subst h1
        refine ⟨hpt c (List.mem_cons_self _ _), ?_⟩
        cases p' with
        | nil =>
          subst h2
          exact Or.inl ⟨q, rfl⟩
        | cons b p'' =>
          subst h2
          refine Or.inr ⟨b :: p'', q, rfl, by simp, ?_⟩
          intro x hx
          exact hpt x (List.mem_cons_of_mem c hx)

/-- C5 counterexample: the claim's literal `.xml` substring condition fails on
the name `axml`, yet `listXmlReports` keeps that entry, because the dot in the
source regex `/^.*.xml/` is unescaped and matches the `a`. -/
theorem listXml_dotless_counterexample :
    listXmlReports ["axml"] = ["axml"] ∧ specContainsDotXml "axml".data = false :=
  ⟨rfl, rfl⟩

/-- C5 amended: `listXmlReports` returns exactly those directory entries whose
name contains `xml` (case-sensitive) at some position at least 1 — preceded by
at least one character, not necessarily a dot, with no line terminator anywhere
before the occurrence, since a JS regexp dot never matches a line terminator —
keeping the enumeration order with no sorting imposed; in particular the
listing ["a.xml", "b.txt", "c.XML.bak"] yields exactly ["a.xml"]. -/
theorem listXml_filter_amended (files : List String) :
    List.Sublist (listXmlReports files) files
    ∧ (∀ f, f ∈ listXmlReports files ↔
        f ∈ files ∧ ∃ p q, f.data = p ++ 'x' :: 'm' :: 'l' :: q ∧ p ≠ [] ∧
          ∀ c ∈ p, isLineTerm c = false)
    ∧ listXmlReports ["a.xml", "b.txt", "c.XML.bak"] = ["a.xml"] := by
  refine ⟨List.filter_sublist _, fun f => ?_, by rfl⟩
  rw [listXmlReports, List.mem_filter]
  simp only [hasXmlAfterFirst_iff]

/-- Witness for C5's amended filter characterization on a concrete listing. -/
theorem listXml_filter_amended_witness :
    "axml" ∈ listXmlReports ["axml", "b.txt"] :=
  ((listXml_filter_amended ["axml", "b.txt"]).2.1 "axml").mpr
    ⟨by simp, ['a'], [], rfl, by simp, by decide⟩

/-- C6: a failure of the authentication request is only logged and does not
prevent the per-file import requests from being issued: one import request per
listed file is still sent, each with the undefined bearer token rendered as
"Bearer undefined" in its Authorization header. -/
theorem importXml_auth_failure_still_imports (xrayCloudUrl dir testExecutionKey : String)
    (dirListing : List String) (e : String) :
    List.map (fun r => r.body)
        (importXmlDataToXray xrayCloudUrl dir testExecutionKey dirListing (Except.error e)) =
      List.map (fun f => dir ++ "/" ++ f) (listXmlReports dirListing)
    ∧ ∀ r ∈ importXmlDataToXray xrayCloudUrl dir testExecutionKey dirListing (Except.error e),
        r.authHeader = "Bearer undefined" := by
  constructor
  · simp [importXmlDataToXray]
  · intro r hr
    simp only [importXmlDataToXray, List.mem_map] at hr
    obtain ⟨f, hf, rfl⟩ := hr
    rfl

/-- Witness for C6 on a one-file listing with a failing authentication. -/
theorem importXml_auth_failure_witness :
    ImportRequest.authHeader
      { url := "https://x/api/v2/import/execution/junit?projectKey=DEMO&testExecKey=DEMO-100",
        authHeader := "Bearer undefined", body := "reports/a.xml" } = "Bearer undefined" :=
  (importXml_auth_failure_still_imports "https://x" "reports" "DEMO-100" ["a.xml"] "boom").2
    _ (by decide)

/-- C7: for a directory whose listing has N names matching the XML report
pattern, `importXmlDataToXray` issues exactly N import requests, one per
matching file, each tagged (in its query string) with the same caller-supplied
execution-ticket key and the fixed project key DEMO. -/
theorem importXml_one_request_per_file (xrayCloudUrl dir testExecutionKey : String)
    (dirListing : List String) (authResult : Except String String) :
    (importXmlDataToXray xrayCloudUrl dir testExecutionKey dirListing authResult).length =
      (listXmlReports dirListing).length
    ∧ List.map (fun r => r.body)
        (importXmlDataToXray xrayCloudUrl dir testExecutionKey dirListing authResult) =
      List.map (fun f => dir ++ "/" ++ f) (listXmlReports dirListing)
    ∧ projectKey = "DEMO"
    ∧ ∀ r ∈ importXmlDataToXray xrayCloudUrl dir testExecutionKey dirListing authResult,
        r.url = xrayCloudUrl ++ "/api/v2/import/execution/junit?projectKey=" ++ projectKey ++
          "&testExecKey=" ++ testExecutionKey := by
  refine ⟨by simp [importXmlDataToXray], by simp [importXmlDataToXray], rfl, ?_⟩
  intro r hr
  simp only [importXmlDataToXray, List.mem_map] at hr
  obtain ⟨f, hf, rfl⟩ := hr
  rfl

/-- Witness for C7 on a two-file listing with a successful authentication. -/
theorem importXml_one_request_per_file_witness :
    ImportRequest.url
      { url := "https://y/api/v2/import/execution/junit?projectKey=DEMO&testExecKey=DEMO-9",
        authHeader := "Bearer tok", body := "out/r1.xml" } =
      "https://y" ++ "/api/v2/import/execution/junit?projectKey=" ++ projectKey ++
        "&testExecKey=" ++ "DEMO-9" :=
  (importXml_one_request_per_file "https://y" "out" "DEMO-9" ["r1.xml", "r2.xml"]
    (Except.ok "tok")).2.2.2 _ (by decide)

/-- C8: calling `linkTestExecutionResults` with an empty related-ticket list
issues zero link-update calls, logs exactly the informational message (whose
text ends with the execution-ticket key it points at), and returns normally
rather than raising. -/
theorem linkResults_empty_noop (jiraExecutionTicket : String) :
    (linkTestExecutionResults [] jiraExecutionTicket).calls = []
    ∧ (linkTestExecutionResults [] jiraExecutionTicket).logs =
        [noRelatedTicketsMsg jiraExecutionTicket]
    ∧ ∃ p, noRelatedTicketsMsg jiraExecutionTicket = p ++ jiraExecutionTicket :=
  ⟨rfl, rfl, ⟨_, rfl⟩⟩

/-- C9: `createJiraTestExecutionTicket` either returns the key of the created
ticket or, when creation fails for any reason, returns null (the failure is
only logged); being a total function into `Option String`, it never propagates
an exception to the caller. -/
theorem createTicket_key_or_null (jiraAddNewIssue : IssueFields → Except String JiraIssue)
    (githubRepo : String) (githubRun : Nat) (env actor : String) (githubRunId : Nat)
    (branchName : String) :
    (∀ issue,
        jiraAddNewIssue
            (executionIssueFields githubRepo githubRun env actor githubRunId branchName) =
          Except.ok issue →
        createJiraTestExecutionTicket jiraAddNewIssue githubRepo githubRun env actor
          githubRunId branchName = Option.some issue.key)
    ∧ (∀ e,
        jiraAddNewIssue
            (executionIssueFields githubRepo githubRun env actor githubRunId branchName) =
          Except.error e →
        createJiraTestExecutionTicket jiraAddNewIssue githubRepo githubRun env actor
          githubRunId branchName = Option.none) := by
  constructor
  · intro issue h
    simp [createJiraTestExecutionTicket, h]
  · intro e h
    simp [createJiraTestExecutionTicket, h]

/-- Witness for C9 with a tracker that accepts the issue. -/
theorem createTicket_key_or_null_witness :
    createJiraTestExecutionTicket (fun _ => Except.ok { key := "DEMO-77" }) "org/repo" 5
      "staging" "octocat" 123 "main" = Option.some "DEMO-77" :=
  (createTicket_key_or_null (fun _ => Except.ok { key := "DEMO-77" }) "org/repo" 5 "staging"
    "octocat" 123 "main").1 { key := "DEMO-77" } rfl

/-- C10: `addInfoAboutExecution` opens the report file as a read stream exactly
once per invocation — its trace contains exactly one stream-open event,
regardless of the ticket list — and every per-ticket attachment call uses that
same single stream (id 0), never a re-opened one. -/
theorem addInfo_single_stream (relatedJiraTickets : List String)
    (path githubRepo currentBranchName env actor : String) (githubRunId : Nat)
    (reportLink : String) :
    List.filter isOpenStreamEvent
        (addInfoAboutExecution relatedJiraTickets path githubRepo currentBranchName env actor
          githubRunId reportLink) = [ExecutionEvent.openStream path 0]
    ∧ ∀ t sid, ExecutionEvent.attach t sid ∈
        addInfoAboutExecution relatedJiraTickets path githubRepo currentBranchName env actor
          githubRunId reportLink → sid = 0 := by
  constructor
  · simp only [addInfoAboutExecution]
    by_cases h : relatedJiraTickets.length = 0
    · rw [if_pos h]
      rfl
    · rw [if_neg h]
      simp only [List.filter_cons, List.filter_append, isOpenStreamEvent]
      rw [List.filter_eq_nil_iff.mpr, List.filter_eq_nil_iff.mpr]
      · rfl
      · intro a ha
        obtain ⟨t, ht, rfl⟩ := List.mem_map.mp ha
        simp [isOpenStreamEvent]
      · intro a ha
        obtain ⟨t, ht, rfl⟩ := List.mem_map.mp ha
        simp [isOpenStreamEvent]
  · intro t sid hmem
    simp only [addInfoAboutExecution, List.mem_cons, List.mem_append, List.mem_map] at hmem
    rcases hmem with h | h | h
    · exact absurd h (by simp)
    · exact absurd h (by simp)
    · by_cases hl : relatedJiraTickets.length = 0
      · rw [if_pos hl] at h
        simp at h
      · rw [if_neg hl] at h
        rcases List.mem_append.mp h with h | h
        · obtain ⟨t', ht', heq⟩ := List.mem_map.mp h
          injection heq.symm with h1 h2
        · obtain ⟨t', ht', heq⟩ := List.mem_map.mp h
          exact absurd heq (by simp)

/-- Witness for C10 at a concrete two-ticket invocation. -/
theorem addInfo_single_stream_witness :
    ExecutionEvent.attach "DEMO-1" 0 ∈
      addInfoAboutExecution ["DEMO-1", "DEMO-2"] "rep.html" "org/repo" "main" "qa" "octocat" 9
        "https://rep" ∧ (0 : Nat) = 0 :=
  ⟨by decide,
    (addInfo_single_stream ["DEMO-1", "DEMO-2"] "rep.html" "org/repo" "main" "qa" "octocat" 9
      "https://rep").2 "DEMO-1" 0 (by decide)⟩

/-- Two characters with equal codepoints are equal. -/
theorem charEq_of_toNat_eq {x y : Char} (h : x.toNat = y.toNat) : x = y := by
  rw [← Char.ofNat_toNat x, ← Char.ofNat_toNat y, h]

/-- The line order is transitive. -/
theorem lineLtB_trans : ∀ {a b c : List Char},
    lineLtB a b = true → lineLtB b c = true → lineLtB a c = true := by
  intro a
  induction a with
  | nil =>
    intro b c hab hbc
    cases b with
    | nil => simp [lineLtB] at hab
    | cons y ys =>
      cases c with
      | nil => simp [lineLtB] at hbc
      | cons z zs => simp [lineLtB]
  | cons x xs ih =>
    intro b c hab hbc
    cases b with
    | nil => simp [lineLtB] at hab
    | cons y ys =>
      cases c with
      | nil => simp [lineLtB] at hbc
      | cons z zs =>
        simp only [lineLtB] at hab hbc ⊢
        by_cases h1 : x.toNat < y.toNat
        · by_cases h2 : y.toNat < z.toNat
          · rw [if_pos (show x.toNat < z.toNat by omega)]
          · rw [if_neg h2] at hbc
            by_cases h3 : z.toNat < y.toNat
            · rw [if_pos h3] at hbc
              exact absurd hbc (by simp)
            · rw [if_pos (show x.toNat < z.toNat by omega)]
        · rw [if_neg h1] at hab
          by_cases h4 : y.toNat < x.toNat
          · rw [if_pos h4] at hab
            exact absurd hab (by simp)
          · rw [if_neg h4] at hab
            by_cases h2 : y.toNat < z.toNat
            · rw [if_pos (show x.toNat < z.toNat by omega)]
            · rw [if_neg h2] at hbc
              by_cases h3 : z.toNat < y.toNat
              · rw [if_pos h3] at hbc
                exact absurd hbc (by simp)
              · rw [if_neg h3] at hbc
                rw [if_neg (show ¬ x.toNat < z.toNat by omega),
                  if_neg (show ¬ z.toNat < x.toNat by omega)]
                exact ih hab hbc

/-- Of two distinct lines, one is strictly below the other. -/
theorem lineLtB_connex : ∀ (a b : List Char),
    lineLtB a b = false → a ≠ b → lineLtB b a = true := by
  intro a
  induction a with
  | nil =>
    intro b hf hne
    cases b with
    | nil => exact absurd rfl hne
    | cons y ys => simp [lineLtB] at hf
  | cons x xs ih =>
    intro b hf hne
    cases b with
    | nil => simp [lineLtB]
    | cons y ys =>
      simp only [lineLtB] at hf ⊢
      by_cases h1 : x.toNat < y.toNat
      · rw [if_pos h1] at hf
        exact absurd hf (by simp)
      · rw [if_neg h1] at hf
        by_cases h2 : y.toNat < x.toNat
        · rw [if_pos h2]
        · rw [if_neg h2] at hf
          rw [if_neg (show ¬ y.toNat < x.toNat by omega),
            if_neg (show ¬ x.toNat < y.toNat by omega)]
          have hxy : x = y := charEq_of_toNat_eq (by omega)
          refine ih ys hf ?_
          intro hEq
          exact hne (by rw [hxy, hEq])

/-- Membership in an insertion step of the `sort -u` model. -/
theorem mem_insertU (x : String) : ∀ (l : List String) (a : String),
    a ∈ insertU x l ↔ a = x ∨ a ∈ l := by
  intro l
  induction l with
  | nil =>
    intro a
    simp [insertU]
  | cons y ys ih =>
    intro a
    simp only [insertU]
    by_cases h1 : lineLtB x.data y.data = true
    · rw [if_pos h1]
      simp [List.mem_cons]
    · rw [if_neg h1]
      by_cases h2 : x = y
      · rw [if_pos h2]
        subst h2
        simp only [List.mem_cons]
        tauto
      · rw [if_neg h2]
        simp only [List.mem_cons, ih]
        tauto

/-- Inserting into a strictly sorted list keeps it strictly sorted. -/
theorem pairwise_insertU (x : String) : ∀ (l : List String),
    List.Pairwise (fun a b => lineLtB a.data b.data = true) l →
    List.Pairwise (fun a b => lineLtB a.data b.data = true) (insertU x l) := by
  intro l
  induction l with
  | nil =>
    intro h
    simp [insertU]
  | cons y ys ih =>
    intro h
    rcases List.pairwise_cons.mp h with ⟨hy, hys⟩
    simp only [insertU]
    by_cases h1 : lineLtB x.data y.data = true
    · rw [if_pos h1]
      refine List.pairwise_cons.mpr ⟨?_, h⟩
      intro b hb
      rcases List.mem_cons.mp hb with rfl | hb
      · exact h1
      · exact lineLtB_trans h1 (hy b hb)
    · rw [if_neg h1]
      by_cases h2 : x = y
      · rw [if_pos h2]
        exact h
      · rw [if_neg h2]
        refine List.pairwise_cons.mpr ⟨?_, ih hys⟩
        intro b hb
        rcases (mem_insertU x ys b).mp hb with rfl | hb
        · refine lineLtB_connex _ _ (Bool.eq_false_iff.mpr ?_) ?_
          · exact fun hx => h1 hx
          · intro hd
            exact h2 (String.ext hd)
        · exact hy b hb

/-- The `sort -u` model produces a strictly ascending list. -/
theorem sortU_pairwise (l : List String) :
    List.Pairwise (fun a b => lineLtB a.data b.data = true) (sortU l) := by
  induction l with
  | nil => simp [sortU]
  | cons x xs ih => exact pairwise_insertU x (sortU xs) ih

/-- The `sort -u` model neither invents nor loses lines. -/
theorem mem_sortU : ∀ (l : List String) (a : String), a ∈ sortU l ↔ a ∈ l := by
  intro l
  induction l with
  | nil =>
    intro a
    simp [sortU]
  | cons x xs ih =>
    intro a
    rw [show sortU (x :: xs) = insertU x (sortU xs) from rfl, mem_insertU]
    simp only [List.mem_cons, ih]

/-- Elements of the dedup worker come from its input list. -/
theorem mem_dedupFirstAux : ∀ (l seen : List String) (a : String),
    a ∈ dedupFirstAux seen l → a ∈ l := by
  intro l
  induction l with
  | nil =>
    intro seen a h
    simp [dedupFirstAux] at h
  | cons x xs ih =>
    intro seen a h
    simp only [dedupFirstAux] at h
    by_cases hx : x ∈ seen
    · rw [if_pos hx] at h
      exact List.mem_cons_of_mem x (ih seen a h)
    · rw [if_neg hx] at h
      rcases List.mem_cons.mp h with rfl | h
      · exact List.mem_cons_self _ _
      · exact List.mem_cons_of_mem x (ih _ a h)

/-- Nothing already seen reappears in the dedup worker's output. -/
theorem dedupFirstAux_not_mem_seen : ∀ (l seen : List String) (a : String),
    a ∈ dedupFirstAux seen l → a ∉ seen := by
  intro l
  induction l with
  | nil =>
    intro seen a h
    simp [dedupFirstAux] at h
  | cons x xs ih =>
    intro seen a h
    simp only [dedupFirstAux] at h
    by_cases hx : x ∈ seen
    · rw [if_pos hx] at h
      exact ih seen a h
    · rw [if_neg hx] at h
      rcases List.mem_cons.mp h with rfl | h
      · exact hx
      · intro hseen
        exact ih (x :: seen) a h (List.mem_cons_of_mem x hseen)

/-- The dedup worker never emits duplicates. -/
theorem dedupFirstAux_nodup : ∀ (l seen : List String), (dedupFirstAux seen l).Nodup := by
  intro l
  induction l with
  | nil =>
    intro seen
    simp [dedupFirstAux]
  | cons x xs ih =>
    intro seen
    simp only [dedupFirstAux]
    by_cases hx : x ∈ seen
    · rw [if_pos hx]
      exact ih seen
    · rw [if_neg hx]
      refine List.nodup_cons.mpr ⟨?_, ih (x :: seen)⟩
      intro hmem
      exact dedupFirstAux_not_mem_seen xs (x :: seen) x hmem (List.mem_cons_self _ _)

/-- The JS Set dedup never emits duplicates. -/
theorem dedupFirst_nodup (l : List String) : (dedupFirst l).Nodup :=
  dedupFirstAux_nodup l []

/-- Elements of the JS Set dedup come from its input list. -/
theorem mem_dedupFirst (l : List String) (a : String) : a ∈ dedupFirst l → a ∈ l :=
  mem_dedupFirstAux l [] a

/-- Dropping a leading segment of a list leaves a suffix of it. -/
theorem dropWhileIsSuffix (p : Char → Bool) : ∀ (l : List Char), List.IsSuffix (List.dropWhile p l) l := by
  intro l
  induction l with
  | nil => exact List.suffix_refl _
  | cons c cs ih =>
    by_cases hc : p c = true
    · rw [List.dropWhile_cons_of_pos hc]
      exact ih.trans (List.suffix_cons c cs)
    · rw [List.dropWhile_cons_of_neg (by simpa using hc)]

/-- Every string emitted by the grep model is an alphabetic run, a dash and a
digit run, and occurs contiguously inside the scanned text. -/
theorem grepGo_shape : ∀ (fuel : Nat) (l : List Char) (m : String), m ∈ grepGo fuel l →
    ∃ run ds, m.data = run ++ '-' :: ds ∧ run ≠ [] ∧ (∀ c ∈ run, c.isAlpha = true) ∧
      ds ≠ [] ∧ (∀ c ∈ ds, c.isDigit = true) ∧ List.IsInfix (run ++ '-' :: ds) l := by
  intro fuel
  induction fuel with
  | zero =>
    intro l m h
    simp [grepGo] at h
  | succ fuel ih =>
    intro l m h
    cases l with
    | nil => simp [grepGo] at h
    | cons c rest =>
      simp only [grepGo] at h
      by_cases hc : c.isAlpha = true
      · rw [if_pos hc] at h
        split at h
        · rename_i d rest2 heq
          by_cases hd : d.isDigit = true
          · rw [if_pos hd] at h
            rcases List.mem_cons.mp h with rfl | hmem
            · refine ⟨c :: List.takeWhile Char.isAlpha rest,
                d :: List.takeWhile Char.isDigit rest2, by simp, by simp, ?_, by simp, ?_, ?_⟩
              · intro x hx
                rcases List.mem_cons.mp hx with rfl | hx
                · exact hc
                · exact List.mem_takeWhile_imp hx
              · intro x hx
                rcases List.mem_cons.mp hx with rfl | hx
                · exact hd
                · exact List.mem_takeWhile_imp hx
              · refine ⟨[], List.dropWhile Char.isDigit rest2, ?_⟩
                have hr : List.takeWhile Char.isAlpha rest ++
                    List.dropWhile Char.isAlpha rest = rest :=
                  List.takeWhile_append_dropWhile Char.isAlpha rest
                have hr2 : List.takeWhile Char.isDigit rest2 ++
                    List.dropWhile Char.isDigit rest2 = rest2 :=
                  List.takeWhile_append_dropWhile Char.isDigit rest2
                conv_rhs => rw [← hr, heq, ← hr2]
                simp
            · obtain ⟨run, ds, h1, h2, h3, h4, h5, h6⟩ :=
                ih (List.dropWhile Char.isDigit rest2) m hmem
              have hs : List.IsSuffix (List.dropWhile Char.isDigit rest2) (c :: rest) :=
                (dropWhileIsSuffix Char.isDigit rest2).trans
                  ((List.suffix_cons d rest2).trans
                    ((List.suffix_cons '-' (d :: rest2)).trans
                      ((heq ▸ dropWhileIsSuffix Char.isAlpha rest).trans
                        (List.suffix_cons c rest))))
              exact ⟨run, ds, h1, h2, h3, h4, h5, h6.trans hs.isInfix⟩
          · rw [if_neg hd] at h
            obtain ⟨run, ds, h1, h2, h3, h4, h5, h6⟩ := ih ('-' :: d :: rest2) m h
            have hs : List.IsSuffix ('-' :: d :: rest2) (c :: rest) :=
              (heq ▸ dropWhileIsSuffix Char.isAlpha rest).trans (List.suffix_cons c rest)
            exact ⟨run, ds, h1, h2, h3, h4, h5, h6.trans hs.isInfix⟩
        · rename_i x heq
          obtain ⟨run, ds, h1, h2, h3, h4, h5, h6⟩ :=
            ih (List.dropWhile Char.isAlpha rest) m h
          exact ⟨run, ds, h1, h2, h3, h4, h5,
            h6.trans ((dropWhileIsSuffix Char.isAlpha rest).trans
              (List.suffix_cons c rest)).isInfix⟩
      · rw [if_neg hc] at h
        obtain ⟨run, ds, h1, h2, h3, h4, h5, h6⟩ := ih rest m h
        exact ⟨run, ds, h1, h2, h3, h4, h5, h6.trans (List.suffix_cons c rest).isInfix⟩

/-- Splitting after a newline-free segment cuts exactly at the newline. -/
theorem splitNlAux_append : ∀ (xs acc rest : List Char), (∀ c ∈ xs, c ≠ '\n') →
    splitNlAux acc (xs ++ '\n' :: rest) =
      String.mk (acc.reverse ++ xs) :: splitNlAux [] rest := by
  intro xs
  induction xs with
  | nil =>
    intro acc rest h
    simp [splitNlAux]
  | cons c cs ih =>
    intro acc rest h
    have hc : c ≠ '\n' := h c (List.mem_cons_self _ _)
    simp only [List.cons_append, splitNlAux, List.append_eq]
    rw [if_neg hc, ih (c :: acc) rest (fun d hd => h d (List.mem_cons_of_mem c hd))]
    simp

/-- Round trip through the pipe: splitting the grep/sort stdout on newlines and
dropping empty segments recovers exactly the sorted match list, provided every
line is non-empty and newline-free. -/
theorem filter_jsSplit_linesOut : ∀ (ms : List String),
    (∀ m ∈ ms, m.data ≠ [] ∧ ∀ c ∈ m.data, c ≠ '\n') →
    List.filter (fun t => t ≠ "") (splitNlAux [] (linesOutData ms)) = ms := by
  intro ms
  induction ms with
  | nil =>
    intro h
    rfl
  | cons m tail ih =>
    intro h
    have hm := h m (List.mem_cons_self _ _)
    simp only [linesOutData]
    rw [splitNlAux_append m.data [] (linesOutData tail) hm.2]
    simp only [List.reverse_nil, List.nil_append]
    show List.filter (fun t => t ≠ "") (m :: splitNlAux [] (linesOutData tail)) = m :: tail
    have hm0 : m ≠ "" := by
      intro h0
      apply hm.1
      rw [h0]
    rw [List.filter_cons_of_pos (by simpa using hm0),
      ih (fun x hx => h x (List.mem_cons_of_mem m hx))]

/-- The candidate list the JS side computes is the sorted unique grep matches,
uppercased, with later case-collisions removed: the split/filter steps exactly
undo the line serialization because every match is non-empty and newline-free. -/
theorem initialCandidates_eq (gitLog : String) :
    initialCandidates gitLog =
      dedupFirst (List.map jsToUpper (sortU (grepExtract gitLog))) := by
  show dedupFirst (List.map jsToUpper
      (List.filter (fun t => t ≠ "")
        (splitNlAux [] (linesOutData (sortU (grepExtract gitLog)))))) = _
  rw [filter_jsSplit_linesOut]
  intro m hm
  have hmem := (mem_sortU (grepExtract gitLog) m).mp hm
  obtain ⟨run, ds, hdata, hrun, hrunAlpha, hds, hdsDigit, -⟩ :=
    grepGo_shape gitLog.data.length gitLog.data m hmem
  constructor
  · rw [hdata]
    simp
  · intro c hc
    rw [hdata] at hc
    rcases List.mem_append.mp hc with hc | hc
    · have hα := hrunAlpha c hc
      intro hEq
      subst hEq
      exact absurd hα (by decide)
    · rcases List.mem_cons.mp hc with rfl | hc
      · decide
      · have hδ := hdsDigit c hc
        intro hEq
        subst hEq
        exact absurd hδ (by decide)

/-- C3 counterexample: for the commit-log text "b-1 a-2" the pipeline returns
["A-2", "B-1"] — the alphabetically sorted order imposed by the `sort -u` stage
of the shell pipeline — while extraction in order of first occurrence in the
input, as the claim states, would return ["B-1", "A-2"]. -/
theorem extraction_order_counterexample :
    initialCandidates "b-1 a-2" = ["A-2", "B-1"]
    ∧ specFirstOccurrenceExtraction "b-1 a-2" = ["B-1", "A-2"]
    ∧ initialCandidates "b-1 a-2" ≠ specFirstOccurrenceExtraction "b-1 a-2" := by
  refine ⟨rfl, rfl, ?_⟩
  decide

/-- C3 amended: the ticket-key extraction step of `findRelatedJiraTicket`
returns only substrings of the input matching `[A-Za-z]+-[0-9]+`, uppercased
and deduplicated, but in the strictly ascending byte order that `sort -u`
imposes on the raw (pre-uppercase) matches — not in order of first occurrence
in the input. -/
theorem extraction_sorted_amended (gitLog : String) :
    initialCandidates gitLog =
      dedupFirst (List.map jsToUpper (sortU (grepExtract gitLog)))
    ∧ List.Pairwise (fun a b => lineLtB a.data b.data = true) (sortU (grepExtract gitLog))
    ∧ (initialCandidates gitLog).Nodup
    ∧ ∀ s ∈ initialCandidates gitLog, ∃ m, m ∈ grepExtract gitLog ∧ s = jsToUpper m ∧
        List.IsInfix m.data gitLog.data ∧
        ∃ run ds, m.data = run ++ '-' :: ds ∧ run ≠ [] ∧ (∀ c ∈ run, c.isAlpha = true) ∧
          ds ≠ [] ∧ (∀ c ∈ ds, c.isDigit = true) := by
  refine ⟨initialCandidates_eq gitLog, sortU_pairwise _, dedupFirst_nodup _, ?_⟩
  intro s hs
  rw [initialCandidates_eq] at hs
  have hs2 := mem_dedupFirst _ s hs
  obtain ⟨m, hm, rfl⟩ := List.mem_map.mp hs2
  have hmem := (mem_sortU (grepExtract gitLog) m).mp hm
  obtain ⟨run, ds, hdata, hrun, hrunAlpha, hds, hdsDigit, hinf⟩ :=
    grepGo_shape gitLog.data.length gitLog.data m hmem
  exact ⟨m, hmem, rfl, hdata ▸ hinf, run, ds, hdata, hrun, hrunAlpha, hds, hdsDigit⟩

/-- Witness for C3's amended extraction characterization at a concrete log. -/
theorem extraction_sorted_amended_witness :
    ∃ m, m ∈ grepExtract "x DEMO-1" ∧ "DEMO-1" = jsToUpper m ∧
      List.IsInfix m.data "x DEMO-1".data ∧
      ∃ run ds, m.data = run ++ '-' :: ds ∧ run ≠ [] ∧ (∀ c ∈ run, c.isAlpha = true) ∧
        ds ≠ [] ∧ (∀ c ∈ ds, c.isDigit = true) :=
  (extraction_sorted_amended "x DEMO-1").2.2.2 "DEMO-1" (by decide)
